import Mathlib

/-!
# Verification of the Othello boot kernel (`OS_Build/kernel/kernel.c`)

Shallow embedding of the freestanding kernel's VGA text-mode display code
and its boot loop, together with proofs of the specified properties.

Machine integers are modelled as `Nat` / `Int` with explicit `% 2^w`
truncation where the C code performs a narrowing conversion.

The functions `clear_screen`, `print_string`, `print_nl` and
`int_to_string` are `extern` declarations in `kernel.c`; their bodies are
not part of this repository's sources, so they are modelled from the
specification's contracts (each such definition is marked
`Modelled from the spec:` in its doc comment).
-/

namespace Kernel

/-- Embedding of `vga_entry_color` from `kernel.c`:
`return fg | bg << 4;` computed in `int` and truncated to `uint8_t`
on return. -/
def vga_entry_color (fg bg : Nat) : Nat :=
  (fg ||| (bg <<< 4)) % 256

/-- Embedding of `vga_entry` from `kernel.c`:
`return (uint16_t) uc | (uint16_t) color << 8;` computed in `int`
(after integer promotion) and truncated to `uint16_t` on return. -/
def vga_entry (uc color : Nat) : Nat :=
  (uc ||| (color <<< 8)) % 65536

/-- Embedding of `strlen` from `kernel.c`: counts bytes before the first
null byte.  The accessible memory from the pointer is modelled as a list
of bytes; the C loop `while (str[len]) len++;` is the structural
recursion below. -/
def strlen : List Nat → Nat
  | [] => 0
  | b :: rest => if b = 0 then 0 else strlen rest + 1

end Kernel

namespace Kernel

/-- `C1`: for every foreground/background pair `(fg, bg)` with both in
`[0,16)`, `vga_entry_color fg bg` equals `fg ||| (bg <<< 4)`: bits 0–3
hold the foreground and bits 4–7 the background.  Totality and purity are
inherent in the Lean function. -/
theorem vga_entry_color_spec (fg bg : Nat) (hfg : fg < 16) (hbg : bg < 16) :
    vga_entry_color fg bg = fg ||| (bg <<< 4) ∧
    (vga_entry_color fg bg) % 16 = fg ∧
    (vga_entry_color fg bg) / 16 = bg := by
  have h : ∀ fg < 16, ∀ bg < 16,
      vga_entry_color fg bg = fg ||| (bg <<< 4) ∧
      (vga_entry_color fg bg) % 16 = fg ∧
      (vga_entry_color fg bg) / 16 = bg := by decide
  exact h fg hfg bg hbg

/-- Witness for `C1` at the default pair: light grey (7) on black (0). -/
theorem vga_entry_color_spec_witness :
    vga_entry_color 7 0 = 7 ||| (0 <<< 4) ∧
    (vga_entry_color 7 0) % 16 = 7 ∧
    (vga_entry_color 7 0) / 16 = 0 :=
  vga_entry_color_spec 7 0 (by decide) (by decide)

/-- Key bitwise identity: when the low `k` bits capacity covers `g`,
or-ing `g` with `a` shifted left by `k` is plain addition. -/
lemma lor_shiftLeft_eq_add :
    ∀ (k g a : Nat), g < 2 ^ k → g ||| (a <<< k) = 2 ^ k * a + g := by
  intro k
  induction k with
  | zero =>
    intro g a hg
    interval_cases g
    simp
  | succ k ih =>
    intro g a hg
    have hdecomp : Nat.bit (g % 2 = 1) (g >>> 1) = g :=
      Nat.bit_decide_mod_two_eq_one_shiftRight_one g
    have hshift : a <<< (k + 1) = Nat.bit false (a <<< k) := by
      simp [Nat.shiftLeft_succ, Nat.bit]
    have hpow : 2 ^ (k + 1) = 2 * 2 ^ k := by
      rw [pow_succ]; ring
    have hlt : g >>> 1 < 2 ^ k := by
      rw [Nat.shiftRight_one]
      omega
    have hmod := Nat.div_add_mod g 2
    calc g ||| (a <<< (k + 1))
        = Nat.bit (g % 2 = 1) (g >>> 1) ||| Nat.bit false (a <<< k) := by
          rw [hdecomp, hshift]
      _ = Nat.bit ((g % 2 = 1) || false) ((g >>> 1) ||| (a <<< k)) :=
          Nat.lor_bit _ _ _ _
      _ = Nat.bit (g % 2 = 1) (2 ^ k * a + g >>> 1) := by
          rw [Bool.or_false, ih (g >>> 1) a hlt]
      _ = 2 ^ (k + 1) * a + g := by
          rw [Nat.bit_val, Nat.shiftRight_one, hpow, Nat.mul_assoc]
          rcases Nat.mod_two_eq_zero_or_one g with h2 | h2 <;> simp [h2] <;> omega

/-- `C2`: for every glyph byte `g` and attribute byte `a`, `vga_entry g a`
equals `g ||| (a <<< 8)`, the low byte of the result is `g` and the high
byte is `a` (round-trip).  Totality is inherent in the Lean function. -/
theorem vga_entry_spec (g a : Nat) (hg : g < 256) (ha : a < 256) :
    vga_entry g a = g ||| (a <<< 8) ∧
    (vga_entry g a) % 256 = g ∧
    (vga_entry g a) / 256 = a := by
  have key : g ||| (a <<< 8) = 256 * a + g := by
    have := lor_shiftLeft_eq_add 8 g a (by omega)
    simpa using this
  have hval : vga_entry g a = 256 * a + g := by
    rw [vga_entry, key]
    exact Nat.mod_eq_of_lt (by omega)
  refine ⟨?_, ?_, ?_⟩
  · rw [hval, key]
  · rw [hval]; omega
  · rw [hval]; omega

/-- Witness for `C2` at the blank cell: space glyph with the default
attribute byte. -/
theorem vga_entry_spec_witness :
    vga_entry 32 7 = 32 ||| (7 <<< 8) ∧
    (vga_entry 32 7) % 256 = 32 ∧
    (vga_entry 32 7) / 256 = 7 :=
  vga_entry_spec 32 7 (by decide) (by decide)

/-- `C8`: for every byte sequence that contains a null byte, `strlen`
returns the index of the first null byte: the result is in range, the
byte there is null, and every earlier byte is non-null.  (In particular
`strlen` of the empty string — a sequence whose first byte is null — is
`0`, and the loop terminates under this precondition.) -/
theorem strlen_spec (s : List Nat) (h : 0 ∈ s) :
    strlen s < s.length ∧
    s.getD (strlen s) 1 = 0 ∧
    ∀ k < strlen s, s.getD k 0 ≠ 0 := by
  induction s with
  | nil => cases h
  | cons b rest ih =>
    by_cases hb : b = 0
    · refine ⟨?_, ?_, ?_⟩
      · simp [strlen, hb]
      · simp [strlen, hb]
      · intro k hk
        simp [strlen, hb] at hk
    · have hrest : 0 ∈ rest := by
        rcases List.mem_cons.mp h with h0 | h0
        · exact absurd h0.symm hb
        · exact h0
      obtain ⟨ih1, ih2, ih3⟩ := ih hrest
      have hs : strlen (b :: rest) = strlen rest + 1 := by
        simp [strlen, hb]
      refine ⟨?_, ?_, ?_⟩
      · simpa [hs] using Nat.succ_lt_succ ih1
      · simpa [hs] using ih2
      · intro k hk
        rw [hs] at hk
        match k with
        | 0 => simpa using hb
        | k + 1 =>
          have : k < strlen rest := by omega
          simpa using ih3 k this

/-- Witness for `C8` on the byte sequence of `"Hi\0"`. -/
theorem strlen_spec_witness :
    strlen [72, 105, 0] < ([72, 105, 0] : List Nat).length ∧
    ([72, 105, 0] : List Nat).getD (strlen [72, 105, 0]) 1 = 0 :=
  ⟨(strlen_spec [72, 105, 0] (by decide)).1,
   (strlen_spec [72, 105, 0] (by decide)).2.1⟩

/-! ## The display driver, modelled from the specification

`clear_screen`, `print_string` and `print_nl` are `extern` in
`kernel.c`; their bodies are not in this repository.  They are modelled
here from the contracts of §4.1/§6 of the specification. -/

/-- The default color pair of a blank terminal: light grey (7)
foreground on black (0) background. -/
def defaultColor : Nat := vga_entry_color 7 0

/-- The blank-cell encoding: a space glyph with the default color. -/
def blankCell : Nat := vga_entry 32 defaultColor

/-- Display-driver state: the memory-mapped buffer (row-major,
`index = row * 80 + column`, per §6) together with the cursor.  The row
index is kept unbounded: this is the idealized pre-wrap view, since the
specification (§4.1) deliberately leaves the wrap/scroll policy open and
states its end-to-end property "before any wrap". -/
structure TermState where
  buf : Nat → Nat
  row : Nat
  col : Nat

/-- Pointwise buffer update. -/
def bufWrite (B : Nat → Nat) (i v : Nat) : Nat → Nat :=
  fun x => if x = i then v else B x

/-- Modelled from the spec: `clear_screen` fills every Character Cell of
the Display Buffer with the blank-cell encoding and resets the cursor to
row 0. -/
def clear_screen (_ : TermState) : TermState :=
  ⟨fun _ => blankCell, 0, 0⟩

/-- One step of `print_string`: write one byte as a Character Cell at
the cursor with the current (default) color, advancing the column. -/
def writeChar (s : TermState) (c : Nat) : TermState :=
  ⟨bufWrite s.buf (s.row * 80 + s.col) (vga_entry c defaultColor), s.row, s.col + 1⟩

/-- Modelled from the spec: `print_string` writes the bytes of the text
left-to-right starting at the current cursor position. -/
def print_string (s : TermState) (t : List Nat) : TermState :=
  t.foldl writeChar s

/-- Modelled from the spec: `print_nl` advances the cursor to the
beginning of the next row. -/
def print_nl (s : TermState) : TermState :=
  ⟨s.buf, s.row + 1, 0⟩

/-- The display state handed over by the bootloader: contents unknown,
modelled as all zero. -/
def initTerm : TermState := ⟨fun _ => 0, 0, 0⟩

/-! ## The integer formatter, modelled from the specification

`int_to_string` is an external collaborator (§4.1/§6): it is `extern`
in `kernel.c` and its body is not in this repository. -/

/-- ASCII code of one digit value (`0`–`9` then `a`–`z`). -/
def digitChar (d : Nat) : Nat :=
  if d < 10 then 48 + d else 97 + (d - 10)

/-- Digit characters of `n` in the given radix, least significant
first.  The first argument after the radix is fuel; `n` itself is
always enough fuel for any radix ≥ 2. -/
def toDigitsRev (radix : Nat) : Nat → Nat → List Nat
  | 0, _ => []
  | _ + 1, 0 => []
  | fuel + 1, n + 1 =>
    digitChar ((n + 1) % radix) :: toDigitsRev radix fuel ((n + 1) / radix)

/-- Text of a natural number in the given radix (most significant digit
first; `0` renders as `"0"`). -/
def natToText (radix n : Nat) : List Nat :=
  if n = 0 then [48] else (toDigitsRev radix n n).reverse

/-- Modelled from the spec: `int_to_string` converts a signed 32-bit
integer to its textual representation in the given radix, handling the
minimum representable value and zero correctly; this is the formatted
text it deposits in the caller's buffer (starting at its first byte) and
returns a pointer to. -/
def int_to_string (v : Int) (radix : Nat) : List Nat :=
  if v < 0 then 45 :: natToText radix v.natAbs else natToText radix v.natAbs

/-- `C6`: after `clear_screen`, every one of the 2000 (80×25) cells of
the Display Buffer holds the blank-cell encoding (space glyph, light
grey on black) and the cursor is reset to row 0. -/
theorem clear_screen_spec (s : TermState) (i : Nat) (_hi : i < 2000) :
    (clear_screen s).buf i = vga_entry 32 (vga_entry_color 7 0) ∧
    (clear_screen s).row = 0 := by
  exact ⟨rfl, rfl⟩

/-- Witness for `C6` at cell 0 of the boot-time display state. -/
theorem clear_screen_spec_witness :
    (clear_screen initTerm).buf 0 = vga_entry 32 (vga_entry_color 7 0) ∧
    (clear_screen initTerm).row = 0 :=
  clear_screen_spec initTerm 0 (by decide)

/-- `C7`: `int_to_string` formats `35` in radix 10 as the ASCII text
`"35"` (`[51, 53]`), and formats the minimum signed 32-bit value
`-2147483648` as `"-2147483648"` (`[45, 50, 49, 52, 55, 52, 56, 51, 54,
52, 56]`) without overflow. -/
theorem int_to_string_spec :
    int_to_string 35 10 = [51, 53] ∧
    int_to_string (-2147483648) 10 =
      [45, 50, 49, 52, 55, 52, 56, 51, 54, 52, 56] := by
  constructor <;> decide

/-! ## The boot loop `kernel_main`, embedded from `kernel.c`

`kernel_main` is embedded as a small-step machine.  Each step performs
one call (`clear_screen`, `int_to_string`, `print_string`, `print_nl`)
and emits it as an event carrying its arguments from the source.  The
`done` phase would be reached only if `kernel_main` returned; the step
function, translated from the source, never produces it. -/

/-- One call made by `kernel_main`, with its arguments. -/
inductive Event
  | clearScreen
  | intToString (v : Int) (radix : Int) (bufSize : Nat)
  | printString (text : List Nat)
  | printNl
deriving DecidableEq

/-- Control state of `kernel_main`: before `clear_screen`; inside the
`for` loop at counter `i` about to perform sub-statement `sub`
(0 = `int_to_string`, 1 = `print_string`, 2 = `print_nl`); or returned. -/
inductive KPhase
  | start
  | loop (i : Int) (sub : Nat)
  | done
deriving DecidableEq

/-- One step of `kernel_main`, from the source:
`clear_screen(); while (1) { for (i = 1; i <= 35; ++i) {
int_to_string(i, line, 10); print_string(line); print_nl(); } }`.
The `line` buffer is 100 bytes (`char line[100]`); under the modelled
formatter, `print_string(line)` receives the formatted text of `i`. -/
def kstep : KPhase → Option (KPhase × Event)
  | .start => some (.loop 1 0, .clearScreen)
  | .loop i 0 => some (.loop i 1, .intToString i 10 100)
  | .loop i 1 => some (.loop i 2, .printString (int_to_string i 10))
  | .loop i _ =>
    some ((if i < 35 then KPhase.loop (i + 1) 0 else KPhase.loop 1 0), .printNl)
  | .done => none

/-- Effect of one call on the display state. -/
def applyEvent (d : TermState) : Event → TermState
  | .clearScreen => clear_screen d
  | .intToString _ _ _ => d
  | .printString t => print_string d t
  | .printNl => print_nl d

/-- The machine after `n` steps: display state and control state. -/
def kexec : Nat → TermState × KPhase
  | 0 => (initTerm, .start)
  | n + 1 =>
    match kstep (kexec n).2 with
    | some (p, e) => (applyEvent (kexec n).1 e, p)
    | none => kexec n

/-- The call performed at step `n` (none once the machine halted). -/
def kevent (n : Nat) : Option Event :=
  Option.map Prod.snd (kstep (kexec n).2)

lemma kexec_succ_of_step {m : Nat} {q : KPhase} {e : Event}
    (h : kstep (kexec m).2 = some (q, e)) :
    kexec (m + 1) = (applyEvent (kexec m).1 e, q) := by
  simp [kexec, h]

/-- Range invariant: the control state is `start` only initially, and
otherwise sits in the loop with counter in `[1, 35]`. -/
lemma kexec_phase_inv :
    ∀ n, (kexec n).2 = KPhase.start ∨
      ∃ i sub, (kexec n).2 = KPhase.loop i sub ∧ 1 ≤ i ∧ i ≤ 35 := by
  intro n
  induction n with
  | zero => left; rfl
  | succ n ih =>
    rcases ih with h | ⟨i, sub, h, h1, h35⟩
    · right
      rw [kexec_succ_of_step (by rw [h]; rfl)]
      exact ⟨1, 0, rfl, by omega, by omega⟩
    · right
      match sub with
      | 0 =>
        rw [kexec_succ_of_step (q := KPhase.loop i 1)
          (e := Event.intToString i 10 100) (by rw [h]; rfl)]
        exact ⟨i, 1, rfl, h1, h35⟩
      | 1 =>
        rw [kexec_succ_of_step (q := KPhase.loop i 2)
          (e := Event.printString (int_to_string i 10)) (by rw [h]; rfl)]
        exact ⟨i, 2, rfl, h1, h35⟩
      | sub + 2 =>
        rw [kexec_succ_of_step
          (q := if i < 35 then KPhase.loop (i + 1) 0 else KPhase.loop 1 0)
          (e := Event.printNl) (by rw [h]; rfl)]
        by_cases hi : i < 35
        · exact ⟨i + 1, 0, by simp [hi], by omega, by omega⟩
        · exact ⟨1, 0, by simp [hi], by omega, by omega⟩

/-- After at least one step the control state is inside the loop. -/
lemma kexec_phase_loop (n : Nat) :
    ∃ i sub, (kexec (n + 1)).2 = KPhase.loop i sub ∧ 1 ≤ i ∧ i ≤ 35 := by
  rcases kexec_phase_inv n with h | ⟨i, sub, h, h1, h35⟩
  · rw [kexec_succ_of_step (by rw [h]; rfl)]
    exact ⟨1, 0, rfl, by omega, by omega⟩
  · match sub with
    | 0 =>
      rw [kexec_succ_of_step (q := KPhase.loop i 1)
        (e := Event.intToString i 10 100) (by rw [h]; rfl)]
      exact ⟨i, 1, rfl, h1, h35⟩
    | 1 =>
      rw [kexec_succ_of_step (q := KPhase.loop i 2)
        (e := Event.printString (int_to_string i 10)) (by rw [h]; rfl)]
      exact ⟨i, 2, rfl, h1, h35⟩
    | sub + 2 =>
      rw [kexec_succ_of_step
        (q := if i < 35 then KPhase.loop (i + 1) 0 else KPhase.loop 1 0)
        (e := Event.printNl) (by rw [h]; rfl)]
      by_cases hi : i < 35
      · exact ⟨i + 1, 0, by simp [hi], by omega, by omega⟩
      · exact ⟨1, 0, by simp [hi], by omega, by omega⟩

/-- `C4`: `kernel_main` never returns: after any number of executed
steps the control state is not `done` and the machine can take another
step (the `while (1)` loop has no exit path). -/
theorem kernel_main_never_returns (n : Nat) :
    (kexec n).2 ≠ KPhase.done ∧ kstep (kexec n).2 ≠ none := by
  have h : (kexec n).2 = KPhase.start ∨
      ∃ i sub, (kexec n).2 = KPhase.loop i sub ∧ 1 ≤ i ∧ i ≤ 35 :=
    kexec_phase_inv n
  rcases h with h | ⟨i, sub, h, _, _⟩
  · rw [h]; exact ⟨by simp, by simp [kstep]⟩
  · rw [h]
    refine ⟨by simp, ?_⟩
    match sub with
    | 0 => simp [kstep]
    | 1 => simp [kstep]
    | sub + 2 => simp [kstep]

/-- One full `for`-body iteration (three steps) from the head of the
body: phases traversed, resulting display state and next counter. -/
lemma kexec_cycle (m : Nat) (i : Int) (h : (kexec m).2 = KPhase.loop i 0) :
    (kexec (m + 1)).2 = KPhase.loop i 1 ∧
    (kexec (m + 2)).2 = KPhase.loop i 2 ∧
    (kexec (m + 3)).2 =
      (if i < 35 then KPhase.loop (i + 1) 0 else KPhase.loop 1 0) ∧
    (kexec (m + 3)).1 = print_nl (print_string (kexec m).1 (int_to_string i 10)) := by
  have h1 : kexec (m + 1) = ((kexec m).1, KPhase.loop i 1) := by
    rw [kexec_succ_of_step (q := KPhase.loop i 1)
      (e := Event.intToString i 10 100) (by rw [h]; rfl)]
    rfl
  have h2 : kexec (m + 2) =
      (print_string (kexec m).1 (int_to_string i 10), KPhase.loop i 2) := by
    rw [show m + 2 = (m + 1) + 1 from rfl, kexec_succ_of_step (q := KPhase.loop i 2)
      (e := Event.printString (int_to_string i 10)) (by rw [h1]; rfl), h1]
    rfl
  have h3 : kexec (m + 3) =
      (print_nl (print_string (kexec m).1 (int_to_string i 10)),
       if i < 35 then KPhase.loop (i + 1) 0 else KPhase.loop 1 0) := by
    rw [show m + 3 = (m + 2) + 1 from rfl, kexec_succ_of_step
      (q := if i < 35 then KPhase.loop (i + 1) 0 else KPhase.loop 1 0)
      (e := Event.printNl) (by rw [h2]; rfl), h2]
    rfl
  exact ⟨by rw [h1], by rw [h2], by rw [h3], by rw [h3]⟩

/-- Position of the control state at the head of each `for`-body
iteration: before the `n`-th iteration (0-based, across `while`
restarts) the counter is `n % 35 + 1`. -/
lemma kexec_phase_at (n : Nat) :
    (kexec (1 + 3 * n)).2 = KPhase.loop ((n % 35 : Nat) + 1) 0 := by
  induction n with
  | zero =>
    have h0 : (kexec 0).2 = KPhase.start := rfl
    rw [show 1 + 3 * 0 = 0 + 1 from rfl, kexec_succ_of_step
      (q := KPhase.loop 1 0) (e := Event.clearScreen) (by rw [h0]; rfl)]
    norm_num
  | succ n ih =>
    have hcy := (kexec_cycle (1 + 3 * n) _ ih).2.2.1
    rw [show 1 + 3 * (n + 1) = (1 + 3 * n) + 3 by ring, hcy]
    by_cases hn : n % 35 = 34
    · rw [hn, if_neg (by norm_num)]
      have hmod : (n + 1) % 35 = 0 := by omega
      rw [hmod]
      norm_num
    · have hlt : n % 35 < 34 := by
        have := Nat.mod_lt n (y := 35) (by omega)
        omega
      rw [if_pos (by omega)]
      have hmod : (n + 1) % 35 = n % 35 + 1 := by omega
      rw [hmod]
      congr 1

/-- `C3`: `kernel_main` performs `clear_screen` as its very first call
and never again, and then forever repeats, for `i` from 1 to 35 in
increasing order, the calls `int_to_string(i, line, 10)`,
`print_string` on the formatted text, `print_nl`: the `n`-th iteration
(0-based) uses counter `n % 35 + 1`. -/
theorem kernel_main_boot_sequence (n : Nat) :
    kevent 0 = some Event.clearScreen ∧
    kevent (n + 1) ≠ some Event.clearScreen ∧
    kevent (1 + 3 * n) =
      some (Event.intToString ((n % 35 : Nat) + 1) 10 100) ∧
    kevent (2 + 3 * n) =
      some (Event.printString (int_to_string ((n % 35 : Nat) + 1) 10)) ∧
    kevent (3 + 3 * n) = some Event.printNl := by
  refine ⟨rfl, ?_, ?_, ?_, ?_⟩
  · obtain ⟨i, sub, h, _, _⟩ := kexec_phase_loop n
    rw [kevent, h]
    match sub with
    | 0 => simp [kstep]
    | 1 => simp [kstep]
    | s + 2 => simp [kstep]
  · rw [kevent, kexec_phase_at n]
    rfl
  · rw [show 2 + 3 * n = (1 + 3 * n) + 1 by ring, kevent,
      (kexec_cycle (1 + 3 * n) _ (kexec_phase_at n)).1]
    rfl
  · rw [show 3 + 3 * n = (1 + 3 * n) + 2 by ring, kevent,
      (kexec_cycle (1 + 3 * n) _ (kexec_phase_at n)).2.1]
    rfl

/-- Decimal texts of the values the boot loop formats are at most two
characters. -/
lemma int_to_string_len_le (v : Int) (h1 : 1 ≤ v) (h35 : v ≤ 35) :
    (int_to_string v 10).length ≤ 2 := by
  have hneg : ¬ v < 0 := by omega
  rw [int_to_string, if_neg hneg]
  have hnat : ∀ m < 35, (natToText 10 (m + 1)).length ≤ 2 := by decide
  have habs1 : 1 ≤ v.natAbs := by omega
  have := hnat (v.natAbs - 1) (by omega)
  rwa [Nat.sub_add_cancel habs1] at this

/-- `C9`: every `int_to_string` call `kernel_main` makes has its value
in `[1, 35]`, radix 10 and the caller-owned 100-byte `line` buffer; in
particular the zero and minimum-int edge cases of the `int_to_string`
contract are never exercised, and the text produced (plus its null
terminator) always fits the buffer. -/
theorem int_to_string_call_invariant (n : Nat) (v radix : Int)
    (bufSize : Nat) (h : kevent n = some (Event.intToString v radix bufSize)) :
    1 ≤ v ∧ v ≤ 35 ∧ radix = 10 ∧ bufSize = 100 ∧
    v ≠ 0 ∧ v ≠ -2147483648 ∧
    (int_to_string v 10).length + 1 ≤ bufSize := by
  rcases kexec_phase_inv n with hp | ⟨i, sub, hp, h1, h35⟩
  · rw [kevent, hp] at h
    simp [kstep] at h
  · rw [kevent, hp] at h
    match sub with
    | 0 =>
      simp [kstep] at h
      obtain ⟨hv, hr, hb⟩ := h
      subst hv hr hb
      refine ⟨h1, h35, rfl, rfl, by omega, by omega, ?_⟩
      have := int_to_string_len_le i h1 h35
      omega
    | 1 => simp [kstep] at h
    | s + 2 => simp [kstep] at h

/-- Witness for `C9` at the very first `int_to_string` call (step 1,
value 1). -/
theorem int_to_string_call_invariant_witness :
    1 ≤ (1 : Int) ∧ (1 : Int) ≤ 35 ∧ (10 : Int) = 10 ∧ (100 : Nat) = 100 ∧
    (1 : Int) ≠ 0 ∧ (1 : Int) ≠ -2147483648 ∧
    (int_to_string 1 10).length + 1 ≤ 100 :=
  int_to_string_call_invariant 1 1 10 100 (by decide)

/-! ## Display contents after the first 35 cycles (`C5`) -/

@[simp] lemma writeChar_row (s : TermState) (c : Nat) :
    (writeChar s c).row = s.row := rfl

@[simp] lemma writeChar_col (s : TermState) (c : Nat) :
    (writeChar s c).col = s.col + 1 := rfl

@[simp] lemma writeChar_buf (s : TermState) (c : Nat) :
    (writeChar s c).buf =
      bufWrite s.buf (s.row * 80 + s.col) (vga_entry c defaultColor) := rfl

@[simp] lemma print_nl_row (s : TermState) : (print_nl s).row = s.row + 1 := rfl

@[simp] lemma print_nl_col (s : TermState) : (print_nl s).col = 0 := rfl

@[simp] lemma print_nl_buf (s : TermState) : (print_nl s).buf = s.buf := rfl

lemma print_string_cons (s : TermState) (c : Nat) (t : List Nat) :
    print_string s (c :: t) = print_string (writeChar s c) t := rfl

lemma print_string_row : ∀ (t : List Nat) (s : TermState),
    (print_string s t).row = s.row := by
  intro t
  induction t with
  | nil => intro s; rfl
  | cons c t ih => intro s; rw [print_string_cons, ih]; rfl

lemma print_string_col : ∀ (t : List Nat) (s : TermState),
    (print_string s t).col = s.col + t.length := by
  intro t
  induction t with
  | nil => intro s; simp [print_string]
  | cons c t ih =>
    intro s
    rw [print_string_cons, ih, writeChar_col]
    simp [List.length_cons]
    omega

/-- `print_string` leaves every cell outside the written span of the
current row untouched. -/
lemma print_string_frame : ∀ (t : List Nat) (s : TermState) (x : Nat),
    (x < s.row * 80 + s.col ∨ s.row * 80 + s.col + t.length ≤ x) →
    (print_string s t).buf x = s.buf x := by
  intro t
  induction t with
  | nil => intro s x _; rfl
  | cons c t ih =>
    intro s x hx
    simp only [List.length_cons] at hx
    have hne : x ≠ s.row * 80 + s.col := by omega
    have hx2 : x < (writeChar s c).row * 80 + (writeChar s c).col ∨
        (writeChar s c).row * 80 + (writeChar s c).col + t.length ≤ x := by
      rw [writeChar_row, writeChar_col]
      omega
    rw [print_string_cons, ih (writeChar s c) x hx2, writeChar_buf]
    simp [bufWrite, hne]

/-- `print_string` deposits the text's bytes, encoded with the default
color, left-to-right from the cursor position. -/
lemma print_string_content : ∀ (t : List Nat) (s : TermState) (j : Nat),
    j < t.length →
    (print_string s t).buf (s.row * 80 + s.col + j) =
      vga_entry (t.getD j 0) defaultColor := by
  intro t
  induction t with
  | nil => intro s j hj; simp at hj
  | cons c t ih =>
    intro s j hj
    match j with
    | 0 =>
      rw [print_string_cons]
      have hfr := print_string_frame t (writeChar s c) (s.row * 80 + s.col) (by
        rw [writeChar_row, writeChar_col]
        omega)
      rw [show s.row * 80 + s.col + 0 = s.row * 80 + s.col from rfl, hfr,
        writeChar_buf]
      simp [bufWrite]
    | j + 1 =>
      rw [print_string_cons]
      have hrec := ih (writeChar s c) j (by
        simp only [List.length_cons] at hj
        omega)
      rw [writeChar_row, writeChar_col] at hrec
      rw [show s.row * 80 + s.col + (j + 1) = s.row * 80 + (s.col + 1) + j by
        ring, hrec]
      simp

/-- Display invariant of the boot loop: after the clear and `k ≤ 35`
complete cycles, the cursor sits at the start of row `k` and each row
`r < k` holds the decimal text of `r + 1`. -/
lemma kexec_display_inv : ∀ k, k ≤ 35 →
    (kexec (1 + 3 * k)).1.row = k ∧ (kexec (1 + 3 * k)).1.col = 0 ∧
    (∀ r, r < k → ∀ j, j < (int_to_string ((r : Int) + 1) 10).length →
      (kexec (1 + 3 * k)).1.buf (r * 80 + j) =
        vga_entry ((int_to_string ((r : Int) + 1) 10).getD j 0) defaultColor) := by
  intro k
  induction k with
  | zero =>
    intro _
    have h1 : kexec 1 = (clear_screen initTerm, KPhase.loop 1 0) := by
      rw [show (1 : Nat) = 0 + 1 from rfl, kexec_succ_of_step (m := 0)
        (q := KPhase.loop 1 0) (e := Event.clearScreen) rfl]
      rfl
    rw [show 1 + 3 * 0 = 1 from rfl, h1]
    exact ⟨rfl, rfl, fun r hr => absurd hr (Nat.not_lt_zero r)⟩
  | succ k ih =>
    intro hk35
    have hklt : k < 35 := by omega
    obtain ⟨hrow, hcol, hcontent⟩ := ih (by omega)
    have hphase : (kexec (1 + 3 * k)).2 = KPhase.loop ((k : Int) + 1) 0 := by
      have := kexec_phase_at k
      rwa [Nat.mod_eq_of_lt hklt] at this
    have hcy := (kexec_cycle (1 + 3 * k) _ hphase).2.2.2
    rw [show 1 + 3 * (k + 1) = (1 + 3 * k) + 3 by ring]
    refine ⟨?_, ?_, ?_⟩
    · rw [hcy, print_nl_row, print_string_row, hrow]
    · rw [hcy, print_nl_col]
    · intro r hr j hj
      rw [hcy, print_nl_buf]
      by_cases hrk : r < k
      · have hlen2 : (int_to_string ((r : Int) + 1) 10).length ≤ 2 :=
          int_to_string_len_le _ (by omega) (by
            have : (r : Int) < (k : Int) := by exact_mod_cast hrk
            omega)
        have hfr := print_string_frame (int_to_string ((k : Int) + 1) 10)
          (kexec (1 + 3 * k)).1 (r * 80 + j) (by
            left
            rw [hrow, hcol]
            omega)
        rw [hfr]
        exact hcontent r hrk j hj
      · have hreq : r = k := by omega
        subst hreq
        have hc := print_string_content (int_to_string ((r : Int) + 1) 10)
          (kexec (1 + 3 * r)).1 j hj
        have hidx : (kexec (1 + 3 * r)).1.row * 80 + (kexec (1 + 3 * r)).1.col
            + j = r * 80 + j := by
          rw [hrow, hcol]
          omega
        rw [hidx] at hc
        exact hc

/-- `C5`: running the boot loop for exactly 35 print/newline cycles
(106 machine steps: the clear plus 35 three-call cycles) leaves the
display buffer with rows 0 through 34 holding the decimal texts of 1
through 35 in order, in the idealized pre-wrap view. -/
theorem kernel_display_after_35_cycles (r j : Nat) (hr : r < 35)
    (hj : j < (int_to_string ((r : Int) + 1) 10).length) :
    (kexec 106).1.buf (r * 80 + j) =
      vga_entry ((int_to_string ((r : Int) + 1) 10).getD j 0) defaultColor := by
  have h := (kexec_display_inv 35 (le_refl 35)).2.2
  rw [show (106 : Nat) = 1 + 3 * 35 by norm_num]
  exact h r hr j hj

/-- Witness for `C5` at row 0, column 0: the cell holds `'1'` (49). -/
theorem kernel_display_after_35_cycles_witness :
    (kexec 106).1.buf (0 * 80 + 0) =
      vga_entry ((int_to_string (((0 : Nat) : Int) + 1) 10).getD 0 0)
        defaultColor :=
  kernel_display_after_35_cycles 0 0 (by decide) (by decide)

/-! ## The discarded return pointer of `int_to_string` (`C10`)

`kernel_main` ignores the pointer `int_to_string` returns and passes
the original `line` buffer to `print_string`.  The displayed text is
the formatted value only when the formatter deposits the text at the
first byte of the buffer; the `int_to_string` contract alone (the
returned pointer addresses the text, §4.1) does not force this. -/

/-- The bytes `print_string` reads from a pointer: the buffer contents
up to the first null byte (per `strlen`-style termination). -/
def cString (B : List Nat) : List Nat := B.takeWhile (fun b => b != 0)

/-- A model of an `int_to_string` implementation: how a call rewrites
the caller's buffer, and the offset of the returned pointer into it. -/
structure Formatter where
  writeBuf : Int → List Nat → List Nat
  retOff : Int → Nat

/-- The `int_to_string` contract of §4.1, radix 10: the returned
pointer addresses the formatted text inside the buffer. -/
def FormatterOk (f : Formatter) : Prop :=
  ∀ v buf, cString ((f.writeBuf v buf).drop (f.retOff v)) = int_to_string v 10

/-- The text `print_string` receives each cycle: `kernel_main` passes
`line` itself, i.e. offset 0, whatever the formatter returned. -/
def cycleText (f : Formatter) (v : Int) (buf : List Nat) : List Nat :=
  cString (f.writeBuf v buf)

/-- A formatter that writes the text at the first byte of the buffer
(the stronger assumption). -/
def frontFormatter : Formatter :=
  ⟨fun v _ => int_to_string v 10 ++ [0], fun _ => 0⟩

/-- A formatter meeting the §4.1 contract but depositing the text at
offset 1 (e.g. one that right-aligns and returns a mid-buffer
pointer). -/
def offsetFormatter : Formatter :=
  ⟨fun v _ => 0 :: (int_to_string v 10 ++ [0]), fun _ => 1⟩

lemma digitChar_ne_zero (d : Nat) : digitChar d ≠ 0 := by
  unfold digitChar
  split <;> omega

lemma toDigitsRev_ne_zero :
    ∀ (radix fuel n x : Nat), x ∈ toDigitsRev radix fuel n → x ≠ 0 := by
  intro radix fuel
  induction fuel with
  | zero => intro n x hx; simp [toDigitsRev] at hx
  | succ fuel ih =>
    intro n x hx
    match n with
    | 0 => simp [toDigitsRev] at hx
    | n + 1 =>
      simp only [toDigitsRev] at hx
      rcases List.mem_cons.mp hx with h | h
      · rw [h]; exact digitChar_ne_zero _
      · exact ih _ x h

/-- No formatted text contains a null byte. -/
lemma int_to_string_ne_zero (v : Int) (radix : Nat) :
    ∀ x ∈ int_to_string v radix, x ≠ 0 := by
  have hnat : ∀ y ∈ natToText radix v.natAbs, y ≠ 0 := by
    intro y hy
    rw [natToText] at hy
    split at hy
    · simp at hy; omega
    · rw [List.mem_reverse] at hy
      exact toDigitsRev_ne_zero _ _ _ y hy
  intro x hx
  rw [int_to_string] at hx
  split at hx
  · rcases List.mem_cons.mp hx with h | h
    · omega
    · exact hnat x h
  · exact hnat x hx

lemma cString_append_null (t : List Nat) (h : ∀ x ∈ t, x ≠ 0) :
    cString (t ++ [0]) = t := by
  induction t with
  | nil => rfl
  | cons c t ih =>
    have hc : c ≠ 0 := h c (List.mem_cons_self c t)
    have hcb : (c != 0) = true := by simpa using hc
    simp only [cString, List.cons_append, List.takeWhile_cons, hcb, if_true]
    have := ih (fun x hx => h x (List.mem_cons_of_mem c hx))
    rw [cString] at this
    rw [this]

/-- `C10`: the text displayed each cycle equals the formatted value for
every formatter that writes the text at the first byte of `line`; and
there is a formatter meeting the `int_to_string` return-pointer
contract under which the displayed text differs — so correctness rests
on the stronger first-byte assumption, not on the contract alone. -/
theorem line_buffer_start_assumption :
    (∀ f : Formatter,
        (∀ v buf, cString (f.writeBuf v buf) = int_to_string v 10) →
        ∀ v buf, cycleText f v buf = int_to_string v 10) ∧
    (FormatterOk frontFormatter ∧
        ∀ v buf, cycleText frontFormatter v buf = int_to_string v 10) ∧
    FormatterOk offsetFormatter ∧
    cycleText offsetFormatter 35 [] ≠ int_to_string 35 10 := by
  refine ⟨fun f h v buf => h v buf, ⟨?_, ?_⟩, ?_, ?_⟩
  · intro v buf
    show cString ((int_to_string v 10 ++ [0]).drop 0) = int_to_string v 10
    rw [List.drop_zero]
    exact cString_append_null _ (int_to_string_ne_zero v 10)
  · intro v buf
    exact cString_append_null _ (int_to_string_ne_zero v 10)
  · intro v buf
    show cString ((0 :: (int_to_string v 10 ++ [0])).drop 1) = int_to_string v 10
    rw [List.drop_succ_cons, List.drop_zero]
    exact cString_append_null _ (int_to_string_ne_zero v 10)
  · decide

end Kernel
